import Mathlib

/-!
Verification of the Cloak client-side text-substitution engine
(`client/encrypt-page.js`, `client/encrypt-articles.js`).

Strings are modelled as `List Char` (`Str`); the JavaScript functions of the
two client files are transliterated into executable Lean definitions, and the
specification's claims about them are proved or refuted below.  The external
transform service (spec section 6) is not part of the repository's client code
and is passed in as an oracle parameter wherever a function calls it.
-/

namespace Cloak

/-- Character strings, modelled as lists of characters. -/
abbrev Str := List Char

/-- The zero-width space U+200B that the rewriter may insert for word-break
hints and that `decryptText` strips (encrypt-page.js line 193). -/
def zwsp : Char := Char.ofNat 0x200B

/-- The no-break space U+00A0 used by the rewriter in place of literal
spaces (encrypt-page.js line 606). -/
def nbsp : Char := Char.ofNat 0xA0

/-- Remove every occurrence of a character, as the JavaScript
`text.replace(/c/g, '')` does. -/
def removeAllChar (c : Char) (s : Str) : Str := s.filter (fun x => x ≠ c)

/-- Replace every occurrence of character `a` by `b`, as the JavaScript
`text.replace(/a/g, b)` does. -/
def replaceChar (a b : Char) (s : Str) : Str :=
  s.map (fun x => if x = a then b else x)

/-- The character set trimmed by JavaScript `String.prototype.trim` and
matched by the regular-expression class `\s`: WhiteSpace plus line
terminators (TAB, LF, VT, FF, CR, SP, NBSP, U+1680, U+2000–U+200A, LS, PS,
U+202F, U+205F, U+3000, U+FEFF). -/
def isJsWhitespace (c : Char) : Bool :=
  c.toNat = 0x9 ∨ c.toNat = 0xA ∨ c.toNat = 0xB ∨ c.toNat = 0xC ∨
  c.toNat = 0xD ∨ c.toNat = 0x20 ∨ c.toNat = 0xA0 ∨ c.toNat = 0x1680 ∨
  (0x2000 ≤ c.toNat ∧ c.toNat ≤ 0x200A) ∨ c.toNat = 0x2028 ∨
  c.toNat = 0x2029 ∨ c.toNat = 0x202F ∨ c.toNat = 0x205F ∨
  c.toNat = 0x3000 ∨ c.toNat = 0xFEFF

/-- JavaScript `text.trim()`. -/
def jsTrim (s : Str) : Str :=
  ((s.dropWhile isJsWhitespace).reverse.dropWhile isJsWhitespace).reverse

/-- JavaScript `text.match(/^\s*/)[0]`: the leading whitespace run. -/
def jsLeadingWs (s : Str) : Str := s.takeWhile isJsWhitespace

/-- JavaScript `text.match(/\s*$/)[0]`: the trailing whitespace run. -/
def jsTrailingWs (s : Str) : Str := (s.reverse.takeWhile isJsWhitespace).reverse

/-! ## Reverse-mapping store and `decryptText` (encrypt-page.js lines 70–221) -/

/-- An associative character table, modelling one of the plain-object maps
(`reverseUpper`, `reverseLower`, `reverseSpace`).  Object keys are unique, so
lookup is the first (only) matching entry. -/
abbrev CMap := List (Char × Char)

/-- JavaScript `char in map` followed by `map[char]`. -/
def lookupChar (m : CMap) (c : Char) : Option Char :=
  (m.find? (fun p => p.1 = c)).map (fun p => p.2)

/-- The `mappingStore[MAP_STORE]` record: three nullable reverse tables
(encrypted character to original character).  Initially all three are null;
`storeDecryptionMappings` sets all three together. -/
structure ReverseMaps where
  upper : Option CMap
  lower : Option CMap
  space : Option CMap

/-- A store state in which all three reverse tables are present, as
`storeDecryptionMappings` leaves it. -/
def mkMaps (up low sp : CMap) : ReverseMaps := ⟨some up, some low, some sp⟩

/-- Inversion of a forward map, as `storeDecryptionMappings` builds the
reverse tables: `reverse[encrypted] = original`. -/
def invertMap (m : CMap) : CMap := m.map (fun p => (p.2, p.1))

/-- One character of the decryption loop in `decryptText`
(encrypt-page.js lines 197–218): look the character up in the reverse upper
map, else the reverse lower map, else the reverse space/special map; a
literal newline not found in any table becomes the null placeholder U+0000;
any other unmapped character passes through. -/
def decodeChar (up low sp : CMap) (c : Char) : Char :=
  match lookupChar up c with
  | some o => o
  | none =>
    match lookupChar low c with
    | some o => o
    | none =>
      match lookupChar sp c with
      | some o => o
      | none => if c = '\n' then Char.ofNat 0 else c

/-- `decryptText` (encrypt-page.js lines 185–221).  If the reverse upper or
lower map is absent the input is returned unchanged (fail-open); otherwise
all U+200B characters are removed and the remaining characters are decoded
one by one.  (When upper and lower are present, `storeDecryptionMappings`
has also set the space table, hence the `getD []`.) -/
def decryptText (m : ReverseMaps) (s : Str) : Str :=
  match m.upper, m.lower with
  | some up, some low => (removeAllChar zwsp s).map (decodeChar up low (m.space.getD []))
  | _, _ => s

/-- The clipboard normalization performed by `setupCopyInterception`
(encrypt-page.js lines 855–856) before the decrypt request: remove U+200B,
then replace U+00A0 by a literal space. -/
def copyNormalize (s : Str) : Str := replaceChar nbsp ' ' (removeAllChar zwsp s)

/-- `encryptSearchQuery` (encrypt-page.js lines 931–978).  The secret key and
nonce are the (nullable) stored credentials; `api` is the
`POST /api/encrypt/query` oracle, `none` meaning a transport or response
failure.  An empty query returns the empty string; missing credentials
return the query unchanged; an API failure, or a falsy `data.encrypted`,
also returns the query unchanged. -/
def encryptSearchQuery (secretKey nonce : Option Int) (api : Str → Option Str)
    (query : Str) : Str :=
  if query = [] then []
  else
    match secretKey, nonce with
    | some _, some _ =>
      match api query with
      | some e => if e = [] then query else e
      | none => query
    | _, _ => query

/-! ## Document rewriter (encrypt-page.js lines 585–710) -/

/-- JavaScript `text.split(new RegExp(`(c)`, 'g'))` for a single escaped
character `c`: split at every occurrence of `c`, keeping each delimiter as
its own element, with empty chunks preserved (for example
`"XaX"` splits into `["", "X", "a", "X", ""]`). -/
def splitKeep (sc : Char) : Str → List Str
  | [] => [[]]
  | c :: rest =>
    if c = sc then [] :: [sc] :: splitKeep sc rest
    else
      match splitKeep sc rest with
      | [] => [[c]]
      | h :: t => (c :: h) :: t

/-- The word/space segment contents produced by steps (1)–(2) of the
rewriter (encrypt-page.js lines 606–649): replace every literal space of the
cipher text by U+00A0, split at `spaceChar` keeping the delimiter, and drop
the empty parts (`if (part === '') return`). -/
def rewriteParts (cipher : Str) (sc : Char) : List Str :=
  (splitKeep sc (replaceChar ' ' nbsp cipher)).filter (fun p => p ≠ [])

/-- The test applied to a leading span by the stripping loop
(encrypt-page.js lines 667–690): the span's text is nonempty, and its
trimmed text either becomes empty once every `spaceChar` is removed, or is
exactly `spaceChar`. -/
def spanIsSpaceCharOnly (sc : Char) (content : Str) : Bool :=
  content ≠ [] ∧
  ((removeAllChar sc (jsTrim content) = [] ∧ jsTrim content ≠ []) ∨
    jsTrim content = [sc])

/-- The `while (fragment.firstChild)` loop of encrypt-page.js lines 667–690:
remove leading spans that consist only of `spaceChar`, stopping at the first
span that does not. -/
def stripLeadingSpaceSpans (sc : Char) : List Str → List Str
  | [] => []
  | s :: rest =>
    if spanIsSpaceCharOnly sc s then stripLeadingSpaceSpans sc rest
    else s :: rest

/-- The full per-text-node fragment construction of `encryptPage`
(encrypt-page.js lines 592–691), returning the contents of the generated
spans in order: the re-attached leading whitespace (as `spaceChar`
repetitions, dropped up front when the node is at line start, line 597), the
non-empty split parts, the re-attached trailing whitespace, and finally the
leading `spaceChar`-span stripping when the node is at line start. -/
def buildFragment (atLineStart : Bool) (originalText cipher : Str) (sc : Char) :
    List Str :=
  let leading := if atLineStart then [] else jsLeadingWs originalText
  let trailing := jsTrailingWs originalText
  let spans :=
    (if leading = [] then [] else [List.replicate leading.length sc]) ++
    rewriteParts cipher sc ++
    (if trailing = [] then [] else [List.replicate trailing.length sc])
  if atLineStart then stripLeadingSpaceSpans sc spans else spans

/-! ## Document model, extraction and page rewrite (encrypt-page.js lines 334–710) -/

/-- A rendered document node: an element with a (lowercase) tag name, class
list, data attributes and children, or a text node. -/
inductive DNode where
  | elem (tag : String) (classes : List String)
      (dataAttrs : List (String × String)) (children : List DNode)
  | text (content : Str)

/-- Whether an element matches one of `CONFIG.skipSelectors`
(encrypt-page.js lines 26–35): the tags `script`, `style`, `noscript`,
`meta`, `title`, `head`, the class `no-encrypt`, or the `data-no-encrypt`
attribute. -/
def matchesSkip (tag : String) (classes : List String)
    (dataAttrs : List (String × String)) : Bool :=
  tag = "script" ∨ tag = "style" ∨ tag = "noscript" ∨ tag = "meta" ∨
  tag = "title" ∨ tag = "head" ∨ classes.contains "no-encrypt" ∨
  (dataAttrs.find? (fun p => p.1 = "no-encrypt")).isSome

/-- `CONFIG.minTextLength` of encrypt-page.js (line 38). -/
def pageMinTextLength : Nat := 1

mutual

/-- Text extraction from one node below `document.body`
(`extractAllTextNodes`, encrypt-page.js lines 338–389): a text node is
selected when no ancestor matches the skip list and its trimmed content
reaches `CONFIG.minTextLength`; subtrees of skip-matching elements are
rejected wholesale.  Returns the trimmed payloads in document order. -/
def extractNode : DNode → List Str
  | DNode.text s =>
    if pageMinTextLength ≤ (jsTrim s).length then [jsTrim s] else []
  | DNode.elem tag cls dat cs =>
    if matchesSkip tag cls dat then [] else extractList cs

/-- `extractNode` over a sibling list, in document order. -/
def extractList : List DNode → List Str
  | [] => []
  | n :: rest => extractNode n ++ extractList rest

end

/-- `extractAllTextNodes` on a document body given as its child list. -/
def extractAllTextNodes (body : List DNode) : List Str := extractList body

mutual

/-- The document rewrite of `encryptPage` (encrypt-page.js lines 585–710)
applied to one node: each eligible text node (same eligibility as
`extractNode`) whose cipher text `enc (jsTrim s)` is non-empty is replaced
by the spans of `buildFragment`, one `span` element per segment.  `isFirst`
says whether the node is the first child of its parent, which is the
first rule of `isTextAtLineStart` (encrypt-page.js line 263); the concrete
documents used below exercise only that rule. -/
def rewriteNode (enc : Str → Str) (sc : Char) (isFirst : Bool) :
    DNode → List DNode
  | DNode.text s =>
    if pageMinTextLength ≤ (jsTrim s).length then
      if enc (jsTrim s) = [] then [DNode.text s]
      else
        (buildFragment isFirst s (enc (jsTrim s)) sc).map
          (fun seg => DNode.elem "span" [] [] [DNode.text seg])
    else [DNode.text s]
  | DNode.elem tag cls dat cs =>
    if matchesSkip tag cls dat then [DNode.elem tag cls dat cs]
    else [DNode.elem tag cls dat (rewriteList enc sc true cs)]

/-- `rewriteNode` over a sibling list; only the head is a first child. -/
def rewriteList (enc : Str → Str) (sc : Char) :
    Bool → List DNode → List DNode
  | _, [] => []
  | isFirst, n :: rest =>
    rewriteNode enc sc isFirst n ++ rewriteList enc sc false rest

end

/-- One full `encryptPage` rewrite pass over a document body. -/
def rewritePage (enc : Str → Str) (sc : Char) (body : List DNode) :
    List DNode :=
  rewriteList enc sc true body

/-! ## Article selection and encryption (encrypt-articles.js lines 283–365) -/

/-- `CONFIG.minTextLength` of encrypt-articles.js (line 45). -/
def articleMinTextLength : Nat := 10

/-- The observable state of an article element used by encrypt-articles.js:
its `dataset` flags and text content. -/
structure Article where
  dataEncrypting : Option String
  dataEncrypted : Option String
  dataEncryptionFailed : Option String
  textContent : Str
deriving DecidableEq

/-- The candidate filter of `encryptAllArticles` (encrypt-articles.js lines
335–345): keep elements not being processed, not already encrypted, and
whose trimmed text reaches `CONFIG.minTextLength`.  (`cands` is the ordered,
de-duplicated selector query result.) -/
def selectArticles (cands : List Article) : List Article :=
  cands.filter (fun a =>
    a.dataEncrypting ≠ some "true" ∧ a.dataEncrypted ≠ some "true" ∧
    articleMinTextLength ≤ (jsTrim a.textContent).length)

/-- `encryptArticle` (encrypt-articles.js lines 283–322) as a state
transformer on one article: returns unchanged when `dataset.encrypted` is
already `'true'` or the trimmed text is too short; otherwise, with the font
loaded, installs the cipher text and marks the element encrypted; on font
failure marks it failed. -/
def encryptArticle (enc : Str → Str) (fontOk : Bool) (a : Article) : Article :=
  if a.dataEncrypted = some "true" then a
  else if (jsTrim a.textContent).length < articleMinTextLength then a
  else if fontOk then
    { a with textContent := enc (jsTrim a.textContent),
             dataEncrypted := some "true", dataEncrypting := some "false" }
  else
    { a with dataEncrypting := some "false",
             dataEncryptionFailed := some "true" }

/-! ## Search engine (encrypt-page.js lines 984–1292) -/

/-- The zero-width / no-break normalization applied both when collecting
container text for search (encrypt-page.js line 1035) and to the query
(line 1068): remove U+200B, replace U+00A0 by a literal space. -/
def searchNormalize (s : Str) : Str := replaceChar nbsp ' ' (removeAllChar zwsp s)

/-- Whether `q` occurs in `t` at position `i`. -/
def occursAt (t q : Str) (i : Nat) : Bool :=
  decide (i + q.length ≤ t.length) && decide ((t.drop i).take q.length = q)

/-- All occurrence positions of `q` in `t`, in increasing order.  This is
what the `indexOf` loop of `searchEncryptedDOM` (encrypt-page.js lines
1075–1090) collects: each found index is recorded and the scan resumes one
character later, so every (possibly overlapping) occurrence is listed. -/
def allOccurrences (t q : Str) : List Nat :=
  (List.range (t.length + 1)).filter (occursAt t q)

/-- A search match: container index, start offset and end offset within the
container's normalized text (the `{parent, startIndex, endIndex}` record of
encrypt-page.js lines 1081–1087). -/
abbrev SearchMatch := Nat × Nat × Nat

/-- `searchEncryptedDOM` (encrypt-page.js lines 1059–1094) over the list of
encrypted-container texts collected by `extractTextNodesForSearch` (whose
`textContent` values are passed here raw; both they and the query are
normalized exactly as in the source). -/
def searchEncryptedDOM (containers : List Str) (encryptedQuery : Str) :
    List SearchMatch :=
  if encryptedQuery = [] then []
  else
    let nq := searchNormalize encryptedQuery
    (containers.enum.map (fun p =>
      (allOccurrences (searchNormalize p.2) nq).map
        (fun i => (p.1, i, i + nq.length)))).flatten

/-- `handleSearchInput` (encrypt-page.js lines 1265–1292), reduced to the
match list it computes: a blank query clears the matches; otherwise the
query is encrypted once — only the literal query, no case variants — and
the containers are scanned for that single cipher string. -/
def handleSearchInput (encQ : Str → Str) (containers : List Str)
    (query : Str) : List SearchMatch :=
  if jsTrim query = [] then []
  else searchEncryptedDOM containers (encQ query)

/-! ## Client-side cache (encrypt-articles.js lines 63–103) -/

/-- 32-bit signed wrap-around, the effect of JavaScript `x | 0` and
`x & x` on an integer-valued number. -/
def toInt32 (n : Int) : Int := (n + 2 ^ 31) % 2 ^ 32 - 2 ^ 31

/-- One step of the `getCacheKey` hash loop (encrypt-articles.js lines
71–75): `hash = ((hash << 5) - hash) + char; hash = hash & hash`. -/
def hashStep (h : Int) (c : Char) : Int :=
  toInt32 (toInt32 (h * 32) - h + c.toNat)

/-- `getCacheKey` (encrypt-articles.js lines 68–77): the decimal string of
the 32-bit hash of the text. -/
def getCacheKey (s : Str) : String := toString (s.foldl hashStep 0)

/-- The `encryptionCache` JavaScript `Map`, modelled as its entry list in
insertion/iteration order.  `V` is the stored value type. -/
abbrev Cache (V : Type) := List (String × V)

/-- JavaScript `map.get(k)` (with object keys unique). -/
def mapGet {V : Type} (m : Cache V) (k : String) : Option V :=
  (m.find? (fun p => p.1 = k)).map (fun p => p.2)

/-- JavaScript `map.set(k, v)`: update the value in place when the key is
present (its position in iteration order is kept), else append. -/
def mapSet {V : Type} (m : Cache V) (k : String) (v : V) : Cache V :=
  if m.any (fun p => p.1 = k) then
    m.map (fun p => if p.1 = k then (k, v) else p)
  else m ++ [(k, v)]

/-- `getCached` (encrypt-articles.js lines 82–86) with caching enabled. -/
def getCached {V : Type} (m : Cache V) (text : Str) : Option V :=
  mapGet m (getCacheKey text)

/-- `setCached` (encrypt-articles.js lines 91–103) with caching enabled:
when the cache has reached `maxSize` entries, the first key in iteration
order (`encryptionCache.keys().next().value`) is deleted, then the new
entry is stored. -/
def setCached {V : Type} (maxSize : Nat) (m : Cache V) (text : Str) (v : V) :
    Cache V :=
  let m1 :=
    if maxSize ≤ m.length then
      match m.head? with
      | some p => m.filter (fun q => q.1 ≠ p.1)
      | none => m
    else m
  mapSet m1 (getCacheKey text) v

/-- A cache state after a sequence of `setCached` operations starting from
the empty cache. -/
def runSetCached {V : Type} (maxSize : Nat) (ops : List (Str × V)) : Cache V :=
  ops.foldl (fun m op => setCached maxSize m op.1 op.2) []

/-- Instrumented cache entry: key, stored value, and the step index at
which the key was (first) inserted. -/
abbrev TCache (V : Type) := List (String × V × Nat)

/-- Instrumented `map.set`: like `mapSet`, but a fresh insertion records
the current step index while an in-place update keeps the original one —
exactly the JavaScript `Map` insertion order that `keys().next()`
iterates. -/
def mapSetT {V : Type} (m : TCache V) (k : String) (v : V) (t : Nat) :
    TCache V :=
  if m.any (fun p => p.1 = k) then
    m.map (fun p => if p.1 = k then (k, v, p.2.2) else p)
  else m ++ [(k, v, t)]

/-- Instrumented `setCached`, also advancing the step counter. -/
def setCachedT {V : Type} (maxSize : Nat) (st : TCache V × Nat) (text : Str)
    (v : V) : TCache V × Nat :=
  let m1 :=
    if maxSize ≤ st.1.length then
      match st.1.head? with
      | some p => st.1.filter (fun q => q.1 ≠ p.1)
      | none => st.1
    else st.1
  (mapSetT m1 (getCacheKey text) v st.2, st.2 + 1)

/-- Instrumented run from the empty cache at step 0. -/
def runSetCachedT {V : Type} (maxSize : Nat) (ops : List (Str × V)) :
    TCache V × Nat :=
  ops.foldl (fun st op => setCachedT maxSize st op.1 op.2) ([], 0)

/-- Erase the insertion-step instrumentation. -/
def projT {V : Type} (m : TCache V) : Cache V :=
  m.map (fun p => (p.1, p.2.1))

/-! ## Batch transform client (encrypt-articles.js lines 201–273, 371–423) -/

/-- `CONFIG.maxCacheSize` of encrypt-articles.js (line 57). -/
def maxCacheSize : Nat := 1000

/-- `CONFIG.batchSize` of encrypt-articles.js (line 25). -/
def articleBatchSize : Nat := 10

/-- `encryptTextBatch` (encrypt-articles.js lines 201–273) on the success
path, returning the merged result array and the updated cache.  `enc` is
the external batch endpoint, modelled per spec section 6 as returning one
cipher text per submitted text, in request order.  `cachedResults` is the
sparse array of cache hits (`none` marks a hole), `uncached` the cache-miss
texts with their original indices; the service results are merged back at
those indices and each new result is cached. -/
def encryptTextBatch (enc : Str → Str) (cache : Cache Str) (texts : List Str) :
    List (Option Str) × Cache Str :=
  let cachedResults := texts.map (fun t => getCached cache t)
  let uncached := texts.enum.filter (fun p => getCached cache p.2 = none)
  if uncached = [] then (cachedResults, cache)
  else
    let outs := uncached.map (fun p => enc p.2)
    let merged := (uncached.zip outs).foldl
      (fun acc q => acc.set q.1.1 (some q.2)) cachedResults
    let cache2 := (uncached.zip outs).foldl
      (fun c q => setCached maxCacheSize c q.1.2 q.2) cache
    (merged, cache2)

/-- The application step of one sub-batch in `encryptArticlesBatch`
(encrypt-articles.js lines 404–413): the article at position `index` of the
sub-batch reads `data.encrypted[i + index]` — indexing the sub-batch result
with the global offset `i` added — and installs it only when it is truthy,
otherwise keeping its own text.  `chunk` holds the sub-batch's (trimmed)
article texts, which are also what an unrewritten article keeps showing. -/
def applyChunk (outs : List (Option Str)) (i : Nat) (chunk : List Str) :
    List Str :=
  chunk.enum.map (fun p =>
    match outs.getD (i + p.1) none with
    | some e => if e = [] then p.2 else e
    | none => p.2)

/-- The `for (let i = 0; i < texts.length; i += batchSize)` loop of
`encryptArticlesBatch` (encrypt-articles.js lines 392–414), threading the
cache through the sub-batches.  `fuel` bounds the recursion and is set to
the text count, which the loop never exhausts. -/
def encArticlesGo (enc : Str → Str) :
    Nat → Cache Str → Nat → List Str → List Str
  | _, _, _, [] => []
  | 0, _, _, remaining => remaining
  | fuel + 1, cache, i, remaining =>
    let batch := remaining.take articleBatchSize
    let r := encryptTextBatch enc cache batch
    applyChunk r.1 i batch ++
      encArticlesGo enc fuel r.2 (i + articleBatchSize)
        (remaining.drop articleBatchSize)

/-- `encryptArticlesBatch` (encrypt-articles.js lines 371–423) on the
success path: the final text shown by each valid article, in order, given
the (trimmed, length-filtered) article texts. -/
def encryptArticlesBatch (enc : Str → Str) (cache : Cache Str)
    (texts : List Str) : List Str :=
  encArticlesGo enc texts.length cache 0 texts

/-! ## Concrete fixtures -/

/-- Modelled from the spec: the transform service's per-character `encode`
(spec section 4.1), which is not part of the client code under
verification — each character is looked up in the forward `upper` map,
else `lower`, else `special`, else passed through unchanged. -/
def encodeChar (up low sp : CMap) (c : Char) : Char :=
  match lookupChar up c with
  | some o => o
  | none =>
    match lookupChar low c with
    | some o => o
    | none =>
      match lookupChar sp c with
      | some o => o
      | none => c

/-- Modelled from the spec: character-wise `encode` over a text. -/
def encodeText (up low sp : CMap) (s : Str) : Str :=
  s.map (encodeChar up low sp)

/-- A concrete forward upper-case table for the fixtures. -/
def demoUpper : CMap := [('H', 'G'), ('W', 'H')]

/-- A concrete forward lower-case table (the space character is a member of
the lower map, per spec section 3); space encrypts to `'O'`. -/
def demoLower : CMap :=
  [(' ', 'O'), ('e', 'a'), ('l', 'b'), ('o', 'c'), ('r', 'd'),
   ('d', 'e'), ('w', 'f')]

/-- The fixtures' cipher: `encode` under `demoUpper`/`demoLower`. -/
def demoEncode (s : Str) : Str := encodeText demoUpper demoLower [] s

/-- The `spaceChar` of the fixture mapping: what a space encrypts to. -/
def demoSpaceChar : Char := 'O'

/-- A one-paragraph document whose only text node is the first child of a
`p` element. -/
def demoDoc : List DNode :=
  [DNode.elem "p" [] [] [DNode.text "Hello World".data]]

/-- Eleven distinct article texts of length ≥ `articleMinTextLength`,
one more than `CONFIG.batchSize`. -/
def demoArticleTexts : List Str :=
  ["article aa".data, "article ab".data, "article ac".data,
   "article ad".data, "article ae".data, "article af".data,
   "article ag".data, "article ah".data, "article ai".data,
   "article aj".data, "article ak".data]

/-- An injective stand-in for the batch service in the article demo. -/
def demoServiceEnc (s : Str) : Str := 'X' :: s

/-- An article not yet touched by the pipeline. -/
def demoFreshArticle : Article := ⟨none, none, none, "Fresh article text".data⟩

/-- An article already rewritten: `dataset.encrypted` is `'true'`. -/
def demoDoneArticle : Article :=
  ⟨some "false", some "true", none, "Already encrypted!".data⟩

/-- A candidate list mixing an encrypted and a fresh article. -/
def demoCands : List Article := [demoDoneArticle, demoFreshArticle]

/-- The `POST /api/encrypt/query` oracle of the search fixtures, always
answering with the fixture cipher. -/
def demoApi (t : Str) : Option Str := some (demoEncode t)

/-- The query-encryption function of the search fixtures, with credentials
available. -/
def demoEncQuery (q : Str) : Str :=
  encryptSearchQuery (some 1) (some 2) demoApi q

/-- A rewritten container's text: the fixture cloaking of `"World"`. -/
def demoContainer : Str := demoEncode "World".data

/-- Three cache insertions with distinct keys, used by the cache witness. -/
def demoCacheOps : List (Str × Nat) :=
  [("a".data, 0), ("b".data, 1), ("c".data, 2)]

/-- Invariant of the instrumented cache: entries are listed in strictly
increasing order of insertion step, and all recorded steps lie below the
current counter. -/
def TInv {V : Type} (st : TCache V × Nat) : Prop :=
  st.1.Pairwise (fun p q => p.2.2 < q.2.2) ∧ ∀ p ∈ st.1, p.2.2 < st.2

/-! ## Theorems -/

set_option maxRecDepth 8000

/-- C2: if no mapping table has been stored — the reverse upper or the
reverse lower map is absent — then `decryptText` returns its input
unchanged, and with no secret key or no nonce available
`encryptSearchQuery` returns the query unchanged; both are total Lean
functions, so neither can throw (fail-open identity). -/
theorem decrypt_and_query_fail_open_identity (s q : Str)
    (up low sp : Option CMap) (k n : Option Int) (api : Str → Option Str) :
    decryptText ⟨none, low, sp⟩ s = s ∧
    decryptText ⟨up, none, sp⟩ s = s ∧
    encryptSearchQuery none n api q = q ∧
    encryptSearchQuery k none api q = q := by
  refine ⟨?_, ?_, ?_, ?_⟩
  · cases low <;> rfl
  · cases up <;> rfl
  · by_cases hq : q = [] <;> cases n <;> simp [encryptSearchQuery, hq]
  · by_cases hq : q = [] <;> cases k <;> simp [encryptSearchQuery, hq]

/-- C3 counterexample: a literal newline is present in none of the three
reverse tables, yet `decryptText` does not pass it through unchanged (it
becomes U+0000), refuting the claim's pass-through clause at this input. -/
theorem decryptText_newline_not_passthrough :
    lookupChar [('A', 'B')] '\n' = none ∧ lookupChar [] '\n' = none ∧
    decryptText (mkMaps [('A', 'B')] [] []) ['\n'] ≠ ['\n'] := by decide

/-- C3 (amended): `decryptText` decodes character-wise with fixed table
precedence — inverted upper first, else inverted lower, else inverted
space/special, the first matching table winning on overlap — and a
character present in none of the three tables passes through unchanged
unless it is a literal newline (which becomes U+0000, see C9). -/
theorem decryptText_charwise_precedence (up low sp : CMap) (s : Str) :
    decryptText (mkMaps up low sp) s =
      (removeAllChar zwsp s).map (decodeChar up low sp) ∧
    ∀ c : Char,
      (∀ o, lookupChar up c = some o → decodeChar up low sp c = o) ∧
      (lookupChar up c = none → ∀ o, lookupChar low c = some o →
        decodeChar up low sp c = o) ∧
      (lookupChar up c = none → lookupChar low c = none →
        ∀ o, lookupChar sp c = some o → decodeChar up low sp c = o) ∧
      (lookupChar up c = none → lookupChar low c = none →
        lookupChar sp c = none → c ≠ '\n' → decodeChar up low sp c = c) := by
  refine ⟨rfl, fun c => ⟨?_, ?_, ?_, ?_⟩⟩ <;> intros <;> simp [decodeChar, *]

/-- Witness for C3 (amended): the inverted upper table wins over the
inverted lower table when a character appears in both. -/
theorem decryptText_charwise_precedence_witness :
    decodeChar [('Q', 'q')] [('Q', 'z')] [] 'Q' = 'q' :=
  ((decryptText_charwise_precedence [('Q', 'q')] [('Q', 'z')] [] []).2 'Q').1
    'q' (by decide)

/-- C4 counterexample: `decryptText` does not normalize U+00A0 to a literal
space — decrypting a lone no-break space differs from decrypting its
U+200B-stripped, U+00A0-normalized form, refuting the claimed equality. -/
theorem decryptText_no_nbsp_normalization :
    decryptText (mkMaps [('A', 'B')] [] []) [nbsp] ≠
      decryptText (mkMaps [('A', 'B')] [] []) (copyNormalize [nbsp]) := by
  decide

/-- C4 (amended): before the character-wise decode, `decryptText` removes
every U+200B — so with mappings stored it is invariant under prior U+200B
removal — but it performs no U+00A0 normalization itself; that
normalization is done by the copy-interception path (`copyNormalize`)
before decryption is requested. -/
theorem decryptText_zwsp_invariant (up low sp : CMap) (s : Str) :
    decryptText (mkMaps up low sp) s =
      decryptText (mkMaps up low sp) (removeAllChar zwsp s) := by
  simp [decryptText, mkMaps, removeAllChar, List.filter_filter]

/-- C9: a literal newline that is not present in any of the three reverse
tables is mapped to the null placeholder U+0000, at every position at which
it occurs in the U+200B-stripped cipher text. -/
theorem decryptText_newline_to_null (up low sp : CMap) (s : Str) (i : Nat)
    (h1 : lookupChar up '\n' = none) (h2 : lookupChar low '\n' = none)
    (h3 : lookupChar sp '\n' = none)
    (hc : (removeAllChar zwsp s)[i]? = some '\n') :
    (decryptText (mkMaps up low sp) s)[i]? = some (Char.ofNat 0) := by
  simp [decryptText, mkMaps, List.getElem?_map, hc, decodeChar, h1, h2, h3]

/-- Witness for C9 at a concrete input: decrypting `"a\n"` with a stored
mapping that covers none of `'\n'` yields U+0000 at position 1. -/
theorem decryptText_newline_to_null_witness :
    (decryptText (mkMaps [('a', 'b')] [] []) ['a', '\n'])[1]? =
      some (Char.ofNat 0) :=
  decryptText_newline_to_null [('a', 'b')] [] [] ['a', '\n'] 1 (by decide)
    (by decide) (by decide) (by decide)

theorem splitKeep_ne_nil (sc : Char) (s : Str) : splitKeep sc s ≠ [] := by
  cases s with
  | nil => simp [splitKeep]
  | cons c rest =>
    simp only [splitKeep]
    split
    · simp
    · split <;> simp

theorem splitKeep_flatten (sc : Char) (s : Str) : (splitKeep sc s).flatten = s := by
  induction s with
  | nil => simp [splitKeep]
  | cons c rest ih =>
    simp only [splitKeep]
    split
    · rename_i hc
      simp [hc, ih]
    · split
      · rename_i heq
        exact absurd heq (splitKeep_ne_nil sc rest)
      · rename_i h t heq
        have : (h :: t).flatten = rest := by rw [← heq, ih]
        simpa using this

theorem flatten_filter_ne_nil {α : Type} [DecidableEq α] (l : List (List α)) :
    (l.filter (fun p => p ≠ [])).flatten = l.flatten := by
  induction l with
  | nil => rfl
  | cons a t ih =>
    rw [List.filter_cons]
    by_cases ha : a = []
    · rw [if_neg (by simp [ha]), ih]
      simp [ha]
    · rw [if_pos (by simp [ha])]
      simp only [List.flatten_cons]
      rw [ih]

theorem splitKeep_head_tail (sc : Char) (s : Str) :
    ∀ h t, splitKeep sc s = h :: t → sc ∉ h ∧ ∀ p ∈ t, p = [sc] ∨ sc ∉ p := by
  induction s with
  | nil =>
    intro h t he
    simp only [splitKeep] at he
    cases he
    simp
  | cons c rest ih =>
    intro h t he
    simp only [splitKeep] at he
    split at he
    · rename_i hc
      cases he
      refine ⟨by simp, ?_⟩
      intro p hp
      rcases List.mem_cons.mp hp with rfl | hp2
      · exact Or.inl rfl
      · cases hsp : splitKeep sc rest with
        | nil => exact absurd hsp (splitKeep_ne_nil sc rest)
        | cons h2 t2 =>
          rw [hsp] at hp2
          obtain ⟨hh2, ht2⟩ := ih _ _ hsp
          rcases List.mem_cons.mp hp2 with rfl | hp3
          · exact Or.inr hh2
          · exact ht2 p hp3
    · rename_i hc
      cases hsp : splitKeep sc rest with
      | nil =>
        rw [hsp] at he
        cases he
        refine ⟨?_, by simp⟩
        intro hmem
        exact hc (List.mem_singleton.mp hmem).symm
      | cons h2 t2 =>
        rw [hsp] at he
        cases he
        obtain ⟨hh2, ht2⟩ := ih _ _ hsp
        refine ⟨?_, ht2⟩
        intro hmem
        rcases List.mem_cons.mp hmem with h3 | h3
        · exact hc h3.symm
        · exact hh2 h3

/-- C7: the rewriter's split — after replacing every literal space of the
cipher text with U+00A0 — keeps the delimiter, so the produced word and
space segments concatenate back to the space-normalized cipher text, and
every produced segment is either exactly `spaceChar` or contains no
occurrence of `spaceChar`. -/
theorem rewriteParts_spec (cipher : Str) (sc : Char) :
    (rewriteParts cipher sc).flatten = replaceChar ' ' nbsp cipher ∧
    ∀ p ∈ rewriteParts cipher sc, p = [sc] ∨ sc ∉ p := by
  constructor
  · rw [rewriteParts, flatten_filter_ne_nil, splitKeep_flatten]
  · intro p hp
    have hp2 : p ∈ splitKeep sc (replaceChar ' ' nbsp cipher) :=
      List.mem_of_mem_filter hp
    cases hsp : splitKeep sc (replaceChar ' ' nbsp cipher) with
    | nil => exact absurd hsp (splitKeep_ne_nil sc _)
    | cons h t =>
      obtain ⟨hh, ht⟩ := splitKeep_head_tail sc _ h t hsp
      rw [hsp] at hp2
      rcases List.mem_cons.mp hp2 with rfl | hp3
      · exact Or.inr hh
      · exact ht p hp3

/-- Witness for C7: the segments of the fixture cipher of `"Hello World"`
concatenate back to its space-normalized form, and the delimiter segment is
exactly the space character. -/
theorem rewriteParts_spec_witness :
    (rewriteParts (demoEncode "Hello World".data) 'O').flatten =
      replaceChar ' ' nbsp (demoEncode "Hello World".data) ∧
    ("O".data = ['O'] ∨ 'O' ∉ "O".data) :=
  ⟨(rewriteParts_spec (demoEncode "Hello World".data) 'O').1,
   (rewriteParts_spec (demoEncode "Hello World".data) 'O').2 "O".data
     (by decide)⟩

theorem stripLeading_head_not_only (sc : Char) (l : List Str) :
    ∀ s rest, stripLeadingSpaceSpans sc l = s :: rest →
      spanIsSpaceCharOnly sc s = false := by
  induction l with
  | nil => intro s rest h; simp [stripLeadingSpaceSpans] at h
  | cons a t ih =>
    intro s rest h
    simp only [stripLeadingSpaceSpans] at h
    split at h
    · exact ih s rest h
    · rename_i ha
      cases h
      exact Bool.eq_false_iff.mpr ha

theorem replicate_is_spaceCharOnly (sc : Char)
    (hsc : isJsWhitespace sc = false) (k : Nat) :
    spanIsSpaceCharOnly sc (List.replicate (k + 1) sc) = true := by
  have h1 : List.dropWhile isJsWhitespace (List.replicate (k + 1) sc) =
      List.replicate (k + 1) sc := by
    rw [List.replicate_succ, List.dropWhile_cons, hsc]
    simp
  have htrim : jsTrim (List.replicate (k + 1) sc) = List.replicate (k + 1) sc := by
    unfold jsTrim
    rw [h1, List.reverse_replicate, h1, List.reverse_replicate]
  have hrm : removeAllChar sc (List.replicate (k + 1) sc) = [] := by
    simp [removeAllChar, List.filter_eq_nil_iff, List.eq_of_mem_replicate]
  simp [spanIsSpaceCharOnly, htrim, hrm]

theorem stripLeading_no_replicate_head (sc : Char)
    (hsc : isJsWhitespace sc = false) (l : List Str) (s : Str)
    (rest : List Str) (h : stripLeadingSpaceSpans sc l = s :: rest) (k : Nat) :
    s ≠ List.replicate (k + 1) sc := by
  intro heq
  have hf := stripLeading_head_not_only sc l s rest h
  rw [heq, replicate_is_spaceCharOnly sc hsc k] at hf
  exact absurd hf (by decide)

/-- C6: when a text unit is at line start, the rewritten segment sequence
begins with no `spaceChar`-only segment — whatever leading `spaceChar`
spans the re-attached whitespace or the cipher text would have produced,
the first surviving span is never a (non-empty) repetition of `spaceChar`
(provided `spaceChar` is not itself a whitespace character, which holds
since a space encrypts to a lower-case letter). -/
theorem buildFragment_no_leading_spaceChar (originalText cipher : Str)
    (sc : Char) (hsc : isJsWhitespace sc = false) (s : Str) (rest : List Str)
    (h : buildFragment true originalText cipher sc = s :: rest) (k : Nat) :
    s ≠ List.replicate (k + 1) sc := by
  have h2 : stripLeadingSpaceSpans sc
      (rewriteParts cipher sc ++
        (if jsTrailingWs originalText = [] then []
         else [List.replicate (jsTrailingWs originalText).length sc])) =
      s :: rest := by
    simpa [buildFragment] using h
  exact stripLeading_no_replicate_head sc hsc _ s rest h2 k

/-- Witness for C6: a unit whose cipher text begins with two `spaceChar`
occurrences and whose original text has leading whitespace still yields a
first segment that is not a repetition of `spaceChar`. -/
theorem buildFragment_no_leading_spaceChar_witness :
    isJsWhitespace 'O' = false ∧ "Gabbc".data ≠ List.replicate (0 + 1) 'O' :=
  ⟨by decide,
    buildFragment_no_leading_spaceChar "  Hello World".data
      ("OO".data ++ demoEncode "Hello World".data) 'O' (by decide)
      "Gabbc".data ["O".data, "Hcdbe".data] (by decide) 0⟩

/-- C5 counterexample: running extraction on the rewritten demo document
re-selects all three generated span segments as new eligible text units —
nothing marks encrypt-page output, so extraction is not idempotent there. -/
theorem extract_reselects_rewritten_spans :
    extractAllTextNodes demoDoc = ["Hello World".data] ∧
    extractAllTextNodes (rewritePage demoEncode demoSpaceChar demoDoc) =
      ["Gabbc".data, "O".data, "Hcdbe".data] := by decide

/-- C5 (amended): idempotence holds only on the encrypt-articles side — an
element whose `dataset.encrypted` is `'true'` is never selected by
`encryptAllArticles` and is left unchanged by `encryptArticle`; the
encrypt-page extractor, by contrast, re-selects the spans generated by a
previous run (see the counterexample). -/
theorem article_encrypted_guard (cands : List Article) (a : Article)
    (ha : a ∈ selectArticles cands) :
    a.dataEncrypted ≠ some "true" ∧
    ∀ (enc : Str → Str) (fontOk : Bool) (b : Article),
      b.dataEncrypted = some "true" → encryptArticle enc fontOk b = b := by
  constructor
  · have := List.of_mem_filter ha
    simp only [decide_eq_true_eq] at this
    exact this.2.1
  · intro enc fontOk b hb
    simp [encryptArticle, hb]

/-- Witness for C5 (amended): the fresh demo article is selected and is not
marked encrypted; the already-encrypted demo article is left unchanged. -/
theorem article_encrypted_guard_witness :
    demoFreshArticle.dataEncrypted ≠ some "true" ∧
    encryptArticle demoServiceEnc true demoDoneArticle = demoDoneArticle :=
  ⟨(article_encrypted_guard demoCands demoFreshArticle (by decide)).1,
   (article_encrypted_guard demoCands demoFreshArticle (by decide)).2
     demoServiceEnc true demoDoneArticle (by decide)⟩

/-- C8 counterexample: with a stored mapping and a working query-encryption
endpoint, searching for `"world"` against content cloaking `"World"` yields
no match — the engine has no case-insensitive variant encryption that could
be enabled, so the claimed enabled-mode match cannot occur. -/
theorem search_case_sensitive_no_match :
    handleSearchInput demoEncQuery [demoContainer] "world".data = [] := by
  decide

/-- C8 (amended): `handleSearchInput` encrypts only the literal query (no
lowercase/uppercase/title-case variants exist in the code), so matching is
always case-sensitive: the exact-case query `"World"` matches the cloaked
container once, and `"world"` never matches. -/
theorem search_literal_query_only :
    handleSearchInput demoEncQuery [demoContainer] "World".data =
      [(0, 0, 5)] ∧
    handleSearchInput demoEncQuery [demoContainer] "world".data = [] := by
  decide

/-- C1: evaluating `encryptArticlesBatch` at the failing input. With eleven
valid articles and `CONFIG.batchSize = 10`, the article at index 10 keeps
its plain text although the service returned its cipher text — the
`data.encrypted[i + index]` lookup indexes the second sub-batch's
one-element result at position 10 and finds nothing — while every article
of the first sub-batch is rewritten with its own cipher text. -/
theorem encryptArticlesBatch_misindexes_later_batches :
    (encryptArticlesBatch demoServiceEnc [] demoArticleTexts)[10]? =
      some ("article ak".data) ∧
    demoServiceEnc ("article ak".data) ≠ "article ak".data ∧
    (encryptArticlesBatch demoServiceEnc [] demoArticleTexts)[0]? =
      some (demoServiceEnc "article aa".data) ∧
    (encryptArticlesBatch demoServiceEnc [] demoArticleTexts)[9]? =
      some (demoServiceEnc "article aj".data) := by decide

theorem length_mapSet_le {V : Type} (m : Cache V) (k : String) (v : V) :
    (mapSet m k v).length ≤ m.length + 1 := by
  unfold mapSet
  split
  · simp
  · simp

theorem length_setCached_le {V : Type} (maxSize : Nat) (hmax : 1 ≤ maxSize)
    (m : Cache V) (t : Str) (v : V) (hm : m.length ≤ maxSize) :
    (setCached maxSize m t v).length ≤ maxSize := by
  unfold setCached
  by_cases h : maxSize ≤ m.length
  · cases m with
    | nil => simp at h; omega
    | cons p rest =>
      simp only [if_pos h, List.head?_cons]
      have h1 : ((p :: rest).filter (fun q => q.1 ≠ p.1)).length ≤ rest.length := by
        rw [List.filter_cons, if_neg (by simp)]
        exact List.length_filter_le _ _
      have h2 := length_mapSet_le ((p :: rest).filter (fun q => q.1 ≠ p.1))
        (getCacheKey t) v
      have h3 : (p :: rest).length ≤ maxSize := hm
      simp only [List.length_cons] at h3
      omega
  · simp only [if_neg h]
    have := length_mapSet_le m (getCacheKey t) v
    omega

theorem runSetCached_length_le {V : Type} (maxSize : Nat) (hmax : 1 ≤ maxSize)
    (ops : List (Str × V)) :
    (runSetCached maxSize ops).length ≤ maxSize := by
  suffices h : ∀ (m : Cache V), m.length ≤ maxSize →
      (ops.foldl (fun m op => setCached maxSize m op.1 op.2) m).length ≤
        maxSize by
    exact h [] (by simp)
  induction ops with
  | nil => intro m hm; exact hm
  | cons op rest ih =>
    intro m hm
    exact ih _ (length_setCached_le maxSize hmax m op.1 op.2 hm)

theorem projT_mapSetT {V : Type} (m : TCache V) (k : String) (v : V)
    (t : Nat) : projT (mapSetT m k v t) = mapSet (projT m) k v := by
  unfold mapSetT mapSet projT
  have hany : (List.map (fun p : String × V × Nat => (p.1, p.2.1)) m).any
      (fun p => p.1 = k) = m.any (fun p => p.1 = k) := by
    induction m with
    | nil => rfl
    | cons a t ih => simp only [List.map_cons, List.any_cons, ih]
  by_cases hc : m.any (fun p => p.1 = k) = true
  · rw [if_pos hc, if_pos (by rw [hany]; exact hc)]
    rw [List.map_map, List.map_map]
    refine List.map_congr_left ?_
    intro p _
    by_cases hp : p.1 = k <;> simp [hp]
  · rw [if_neg hc, if_neg (by rw [hany]; exact hc)]
    simp

theorem projT_filter_key {V : Type} (m : TCache V) (key : String) :
    projT (m.filter (fun q => q.1 ≠ key)) =
      (projT m).filter (fun q => q.1 ≠ key) := by
  induction m with
  | nil => rfl
  | cons p rest ih =>
    simp only [projT, List.map_cons, List.filter_cons] at *
    by_cases hp : p.1 = key
    · rw [if_neg (by simp [hp]), if_neg (by simp [hp])]
      exact ih
    · rw [if_pos (by simp [hp]), if_pos (by simp [hp])]
      simp only [List.map_cons]
      rw [ih]

theorem projT_setCachedT {V : Type} (maxSize : Nat) (st : TCache V × Nat)
    (text : Str) (v : V) :
    projT (setCachedT maxSize st text v).1 =
      setCached maxSize (projT st.1) text v := by
  unfold setCachedT setCached
  have hlen : (projT st.1).length = st.1.length := List.length_map _ _
  by_cases h : maxSize ≤ st.1.length
  · rw [if_pos h, if_pos (by rw [hlen]; exact h)]
    cases hm : st.1 with
    | nil => simpa [projT] using projT_mapSetT ([] : TCache V) (getCacheKey text) v st.2
    | cons p rest =>
      have hh1 : (p :: rest).head? = some p := rfl
      have hh2 : (projT (p :: rest)).head? = some (p.1, p.2.1) := rfl
      rw [hh1, hh2]
      show projT (mapSetT ((p :: rest).filter (fun q => q.1 ≠ p.1))
          (getCacheKey text) v st.2) =
        mapSet ((projT (p :: rest)).filter (fun q => q.1 ≠ p.1))
          (getCacheKey text) v
      rw [projT_mapSetT, projT_filter_key]
  · rw [if_neg h, if_neg (by rw [hlen]; exact h)]
    exact projT_mapSetT st.1 (getCacheKey text) v st.2

theorem runSetCached_eq_projT {V : Type} (maxSize : Nat)
    (ops : List (Str × V)) :
    runSetCached maxSize ops = projT (runSetCachedT maxSize ops).1 := by
  suffices h : ∀ (st : TCache V × Nat),
      ops.foldl (fun m op => setCached maxSize m op.1 op.2) (projT st.1) =
        projT ((ops.foldl (fun s op => setCachedT maxSize s op.1 op.2) st)).1 by
    simpa [runSetCached, runSetCachedT, projT] using h ([], 0)
  induction ops with
  | nil => intro st; rfl
  | cons op rest ih =>
    intro st
    simp only [List.foldl_cons]
    rw [← projT_setCachedT maxSize st op.1 op.2]
    exact ih (setCachedT maxSize st op.1 op.2)

theorem TInv_setCachedT {V : Type} (maxSize : Nat) (st : TCache V × Nat)
    (text : Str) (v : V) (h : TInv st) :
    TInv (setCachedT maxSize st text v) := by
  obtain ⟨hpair, htime⟩ := h
  unfold setCachedT
  have hsub : (if maxSize ≤ st.1.length then
      match st.1.head? with
      | some p => st.1.filter (fun q => q.1 ≠ p.1)
      | none => st.1
    else st.1).Sublist st.1 := by
    split
    · split
      · exact List.filter_sublist _
      · exact List.Sublist.refl _
    · exact List.Sublist.refl _
  generalize hm1 : (if maxSize ≤ st.1.length then
      match st.1.head? with
      | some p => st.1.filter (fun q => q.1 ≠ p.1)
      | none => st.1
    else st.1) = m1
  rw [hm1] at hsub
  have hp1 : m1.Pairwise (fun p q => p.2.2 < q.2.2) := hpair.sublist hsub
  have ht1 : ∀ p ∈ m1, p.2.2 < st.2 := fun p hp => htime p (hsub.subset hp)
  constructor
  · show (mapSetT m1 (getCacheKey text) v st.2).Pairwise _
    unfold mapSetT
    split
    · refine List.pairwise_map.mpr (hp1.imp ?_)
      intro a b hab
      have ha : (if a.1 = getCacheKey text then (getCacheKey text, v, a.2.2)
          else a).2.2 = a.2.2 := by split <;> rfl
      have hb : (if b.1 = getCacheKey text then (getCacheKey text, v, b.2.2)
          else b).2.2 = b.2.2 := by split <;> rfl
      simpa [ha, hb] using hab
    · refine List.pairwise_append.mpr ⟨hp1, by simp, ?_⟩
      intro a ha b hb
      simp only [List.mem_singleton] at hb
      subst hb
      exact ht1 a ha
  · show ∀ p ∈ mapSetT m1 (getCacheKey text) v st.2, p.2.2 < st.2 + 1
    intro p hp
    unfold mapSetT at hp
    split at hp
    · obtain ⟨q, hq, rfl⟩ := List.mem_map.mp hp
      have : (if q.1 = getCacheKey text then (getCacheKey text, v, q.2.2)
          else q).2.2 = q.2.2 := by split <;> rfl
      rw [this]
      exact Nat.lt_succ_of_lt (ht1 q hq)
    · rcases List.mem_append.mp hp with hq | hq
      · exact Nat.lt_succ_of_lt (ht1 p hq)
      · simp only [List.mem_singleton] at hq
        subst hq
        exact Nat.lt_succ_self _

theorem TInv_runSetCachedT {V : Type} (maxSize : Nat)
    (ops : List (Str × V)) : TInv (runSetCachedT maxSize ops) := by
  suffices h : ∀ (st : TCache V × Nat), TInv st →
      TInv (ops.foldl (fun s op => setCachedT maxSize s op.1 op.2) st) from
    h ([], 0) ⟨List.Pairwise.nil, by simp⟩
  induction ops with
  | nil => intro st hst; exact hst
  | cons op rest ih =>
    intro st hst
    exact ih _ (TInv_setCachedT maxSize st op.1 op.2 hst)

/-- C10: after any sequence of `setCached` operations from the empty cache
(with a positive size bound), the cache never exceeds `maxSize` entries;
moreover the plain cache is the stamp-erasure of the instrumented cache,
whose entries are strictly ordered by insertion step — so the head entry,
which is exactly what an eviction deletes, is always the oldest-inserted
entry currently in the cache. -/
theorem setCached_bound_and_fifo {V : Type} (maxSize : Nat)
    (hmax : 1 ≤ maxSize) (ops : List (Str × V)) :
    (runSetCached maxSize ops).length ≤ maxSize ∧
    runSetCached maxSize ops = projT (runSetCachedT maxSize ops).1 ∧
    (runSetCachedT maxSize ops).1.Pairwise (fun p q => p.2.2 < q.2.2) ∧
    ∀ hd tl, (runSetCachedT maxSize ops).1 = hd :: tl →
      ∀ q ∈ tl, hd.2.2 < q.2.2 := by
  refine ⟨runSetCached_length_le maxSize hmax ops,
    runSetCached_eq_projT maxSize ops,
    (TInv_runSetCachedT maxSize ops).1, ?_⟩
  intro hd tl heq q hq
  have hpair := (TInv_runSetCachedT maxSize ops).1
  rw [heq] at hpair
  exact (List.pairwise_cons.mp hpair).1 q hq

/-- Witness for C10 at `maxSize = 2` with three distinct insertions: the
bound, the refinement, the ordering, and the head-is-oldest fact at the
concrete final instrumented cache. -/
theorem setCached_bound_and_fifo_witness :
    (runSetCached 2 demoCacheOps).length ≤ 2 ∧
    runSetCached 2 demoCacheOps = projT (runSetCachedT 2 demoCacheOps).1 ∧
    (runSetCachedT 2 demoCacheOps).1.Pairwise (fun p q => p.2.2 < q.2.2) ∧
    (("98", 1, 1) : String × Nat × Nat).2.2 <
      (("99", 2, 2) : String × Nat × Nat).2.2 :=
  ⟨(setCached_bound_and_fifo 2 (by decide) demoCacheOps).1,
   (setCached_bound_and_fifo 2 (by decide) demoCacheOps).2.1,
   (setCached_bound_and_fifo 2 (by decide) demoCacheOps).2.2.1,
   (setCached_bound_and_fifo 2 (by decide) demoCacheOps).2.2.2
     ("98", 1, 1) [("99", 2, 2)] (by decide) ("99", 2, 2) (by decide)⟩

end Cloak
